import Mathlib

/-!
Verification of llutil/seqs.py: sequence generators and property adapters.

Sequences are modelled as lists of characters; the Biopython `Seq` object,
which carries an alphabet, is modelled by the structure `BioSeq` below.
Python slicing, `range`, `zip` (which truncates to the shortest input) and
generator loops are translated to the corresponding `List` operations, so
every generator is a function returning the list of all values it yields,
in yield order.  External tools (Biopython's analyses, the unafold
wrappers) are black boxes per the module's contract: they enter as
function parameters, so theorems quantify over their behaviour.
-/

namespace Llutil

/-- A biological sequence together with its alphabet (models Bio.Seq.Seq:
`letters` is seq.alphabet.letters, `data` is the character content). -/
structure BioSeq where
  letters : List Char
  data : List Char
deriving DecidableEq

/-- Python slice s[a:b] for nonnegative bounds a, b (clamped at the ends,
empty when b <= a). -/
def pySlice (s : List Char) (a b : Nat) : List Char :=
  (s.drop a).take (b - a)

/-- oligo_gen from seqs.py: for i in range(len(seq) - min_len), for j in
range(min_len, max_len + 1), yield seq[i:i+j] when its length equals j. -/
def oligo_gen (seq : List Char) (min_len max_len : Nat) : List (List Char) :=
  (List.range (seq.length - min_len)).flatMap (fun i =>
    (List.range' min_len (max_len + 1 - min_len)).filterMap (fun j =>
      let oligo := pySlice seq i (i + j)
      if oligo.length = j then some oligo else none))

/-- dna_mutation_gen from seqs.py: for i in range(len(seq)), for letter in
seq.alphabet.letters, if letter differs from seq[i].upper(), yield
seq[:i] + letter + seq[i+1:] (the yielded value's character data). -/
def dna_mutation_gen (seq : BioSeq) : List (List Char) :=
  let letters := seq.letters
  (List.range seq.data.length).flatMap (fun i =>
    letters.filterMap (fun letter =>
      if letter ≠ (seq.data.getD i ' ').toUpper then
        some (seq.data.take i ++ letter :: seq.data.drop (i + 1))
      else none))

/-- inosine_gen from seqs.py: for i in range(len(seq)), if seq[i].upper()
is in the set of GAT-compatible characters, yield seq[:i] + 'I' + seq[i+1:]. -/
def inosine_gen (seq : List Char) : List (List Char) :=
  let compat : List Char := ['G', 'A', 'T']
  (List.range seq.length).filterMap (fun i =>
    if (seq.getD i ' ').toUpper ∈ compat then
      some (seq.take i ++ 'I' :: seq.drop (i + 1))
    else none)

/-- The letters of Biopython's IUPAC unambiguous_dna alphabet. -/
def unambiguous_dna_letters : List Char := ['G', 'A', 'T', 'C']

/-- random_dna_seq from seqs.py.  The shared random source is modelled by
the function `draw`: the k-th call of random.choice('ACGT') returns the
character of 'ACGT' at index `draw k`.  The result is tagged with the
unambiguous-DNA alphabet. -/
def random_dna_seq (draw : Nat → Fin 4) (length : Nat) : BioSeq :=
  let s := (List.range length).map (fun k =>
    (['A', 'C', 'G', 'T'] : List Char).get ⟨(draw k).val, (draw k).isLt⟩)
  ⟨unambiguous_dna_letters, s⟩

/-- The DNAProp namedtuple: fields in source order na, gc, Tm, ss_dG,
self_hyb_dG.  Numeric results of the external tools are modelled as
integers (their values are opaque to this module). -/
structure DNAProp where
  na : List Char
  gc : Int
  Tm : Int
  ss_dG : Int
  self_hyb_dG : Int
deriving DecidableEq

/-- dna_properties_batch from seqs.py.  GC, melting_temp, hybrid_ss_min and
hybrid_min are the external tools, passed as parameters; str() on an input
is the identity in this model since inputs are already character lists.
Each hybrid_min result tuple is modelled as a pair, of which the code keeps
the first component.  Python's zip, which silently truncates to the
shortest of its arguments, is the nested List.zip. -/
def dna_properties_batch (GC : List Char → Int)
    (melting_temp : List (List Char) → List Int)
    (hybrid_ss_min : List (List Char) → List Int)
    (hybrid_min : List (List Char) → List (List Char) → List (Int × Int))
    (seqs : List (List Char)) : List DNAProp :=
  let seqs := seqs.map (fun seq => seq)
  let gcs := seqs.map (fun seq => GC seq)
  let Tms := melting_temp seqs
  let ss_dGs := hybrid_ss_min seqs
  let self_hyb_dGs := (hybrid_min seqs seqs).map (fun r => r.1)
  (seqs.zip (gcs.zip (Tms.zip (ss_dGs.zip self_hyb_dGs)))).map
    (fun t => ⟨t.1, t.2.1, t.2.2.1, t.2.2.2.1, t.2.2.2.2⟩)

/-- dna_properties from seqs.py: dna_properties_batch([seq])[0].  Python's
indexing raises on an empty list, so the model returns an Option. -/
def dna_properties (GC : List Char → Int)
    (melting_temp : List (List Char) → List Int)
    (hybrid_ss_min : List (List Char) → List Int)
    (hybrid_min : List (List Char) → List (List Char) → List (Int × Int))
    (seq : List Char) : Option DNAProp :=
  (dna_properties_batch GC melting_temp hybrid_ss_min hybrid_min [seq])[0]?

/-- Python exceptions relevant to protein_properties: KeyError versus any
other exception. -/
inductive PyError where
  | keyError
  | otherError
deriving DecidableEq

/-- The ProteinAnalysis object of the external protein-analysis library,
modelled by the outcomes of its five method calls: each either returns a
value or raises.  Amino-acid counts are a mapping from letter to count. -/
structure ProteinAnalysis where
  count_amino_acids : Except PyError (List (Char × Nat))
  aromaticity : Except PyError Int
  isoelectric_point : Except PyError Int
  instability_index : Except PyError Int
  gravy : Except PyError Int

/-- The ProtProp namedtuple: fields in source order aa, gravy, aromaticity,
isoelectric_point, instability, aa_counts. -/
structure ProtProp where
  aa : List Char
  gravy : Option Int
  aromaticity : Int
  isoelectric_point : Int
  instability : Option Int
  aa_counts : List (Char × Nat)
deriving DecidableEq

/-- Models try: v = call() except KeyError: v = None — a KeyError is turned
into None, a success into a value, any other exception propagates. -/
def tryKeyError (x : Except PyError Int) : Except PyError (Option Int) :=
  match x with
  | Except.ok v => Except.ok (some v)
  | Except.error PyError.keyError => Except.ok none
  | Except.error e => Except.error e

/-- protein_properties from seqs.py.  The external library constructor is
the parameter `analyze`; calls happen in source order (counts, aromaticity,
isoelectric point, then the two guarded calls), and any uncaught exception
propagates, short-circuiting the rest. -/
def protein_properties (analyze : List Char → ProteinAnalysis)
    (seq : List Char) : Except PyError ProtProp :=
  let pa := analyze seq
  match pa.count_amino_acids with
  | Except.error e => Except.error e
  | Except.ok aa_counts =>
    match pa.aromaticity with
    | Except.error e => Except.error e
    | Except.ok arom =>
      match pa.isoelectric_point with
      | Except.error e => Except.error e
      | Except.ok isoelec =>
        match tryKeyError pa.instability_index with
        | Except.error e => Except.error e
        | Except.ok instability =>
          match tryKeyError pa.gravy with
          | Except.error e => Except.error e
          | Except.ok gravy =>
            Except.ok ⟨seq, gravy, arom, isoelec, instability, aa_counts⟩

/-- Concrete sequence used by witnesses. -/
def exSeq : List Char := ['A', 'C', 'G', 'T', 'A']

/-- Concrete sequence with a lowercase character, used by witnesses. -/
def mixedGc : List Char := ['G', 'c']

/-- A sequence over a mixed-case alphabet: the counterexample input. -/
def mixedSeq : BioSeq := ⟨['A', 'a'], ['a']⟩

/-- The spec's own example: the DNA sequence AC over the alphabet ACGT. -/
def seq3 : BioSeq := ⟨['A', 'C', 'G', 'T'], ['A', 'C']⟩

/-- A sequence holding a character N outside its alphabet ACGT. -/
def seqN : BioSeq := ⟨['A', 'C', 'G', 'T'], ['A', 'N']⟩

/-- A concrete protein-analysis outcome whose instability computation
raises KeyError while everything else succeeds. -/
def paKey : List Char → ProteinAnalysis :=
  fun _ => ⟨Except.ok [('A', 2)], Except.ok 3, Except.ok 5,
    Except.error PyError.keyError, Except.ok 7⟩

/-- Concrete GC stand-in for witnesses. -/
def gcEx : List Char → Int := fun s => Int.ofNat s.length

/-- Concrete melting-temperature tool for witnesses: one value per input. -/
def mtEx : List (List Char) → List Int :=
  fun l => l.map (fun s => Int.ofNat s.length + 40)

/-- Concrete secondary-structure tool for witnesses: one value per input. -/
def ssEx : List (List Char) → List Int := fun l => l.map (fun _ => -2)

/-- Concrete hybridization tool for witnesses: one pair per left input. -/
def hmEx : List (List Char) → List (List Char) → List (Int × Int) :=
  fun a _ => a.map (fun _ => (-5, 1))

/-- Concrete batch input for witnesses. -/
def exBatch : List (List Char) := [['A'], ['C', 'G']]

/-- Concrete single-sequence input for witnesses. -/
def wSeq : List Char := ['A', 'C']

/-- Pulling the conditional out of a filterMap: filtering the kept
elements first, then mapping, yields the same list. -/
theorem filterMap_ite {α β : Type} (p : α → Prop) [DecidablePred p]
    (f : α → β) (l : List α) :
    l.filterMap (fun a => if p a then some (f a) else none) =
      (l.filter (fun a => decide (p a))).map f := by
  induction l with
  | nil => rfl
  | cons a l ih =>
    by_cases h : p a <;> simp [List.filterMap_cons, List.filter_cons, h, ih]

/-- A single-position substitution keeps the length of the list. -/
theorem mutate_length (l : List Char) (i : Nat) (c : Char) (hi : i < l.length) :
    (l.take i ++ c :: l.drop (i + 1)).length = l.length := by
  simp only [List.length_append, List.length_take, List.length_cons,
    List.length_drop]
  omega

/-- Indexing into a single-position substitution: position i holds the new
character, every other position holds the original one. -/
theorem mutate_getElem (l : List Char) (i : Nat) (c : Char)
    (hi : i < l.length) (j : Nat) :
    (l.take i ++ c :: l.drop (i + 1))[j]? = if j = i then some c else l[j]? := by
  have hti : (l.take i).length = i := by
    simp only [List.length_take]
    omega
  rcases Nat.lt_trichotomy j i with h | h | h
  · rw [List.getElem?_append, hti, if_pos h, List.getElem?_take, if_pos h,
      if_neg (Nat.ne_of_lt h)]
  · subst h
    rw [List.getElem?_append, hti, if_neg (Nat.lt_irrefl j), Nat.sub_self,
      if_pos rfl]
    simp
  · obtain ⟨k, hk⟩ : ∃ k, j - i = k + 1 := ⟨j - i - 1, by omega⟩
    rw [List.getElem?_append, hti, if_neg (by omega), hk,
      List.getElem?_cons_succ, List.getElem?_drop,
      if_neg (by omega : ¬ j = i)]
    have hjk : i + 1 + k = j := by omega
    rw [hjk]

/-- getD of a valid index is a member of the list. -/
theorem getD_mem_of_lt (l : List Char) (i : Nat) (d : Char)
    (h : i < l.length) : l.getD i d ∈ l := by
  rw [List.getD_eq_getElem l d h]
  exact List.getElem_mem h

/-- Summing a constant over an index range. -/
theorem sum_map_range_const (n m : Nat) :
    ((List.range n).map (fun _ => m)).sum = n * m := by
  induction n with
  | zero => simp
  | succ k ih =>
    rw [List.range_succ]
    simp only [List.map_append, List.sum_append, List.map_cons, List.map_nil,
      List.sum_cons, List.sum_nil, ih]
    rw [Nat.succ_mul]
    omega

/-- A pointwise lower bound on the summands bounds the sum from below. -/
theorem sum_map_range_lower (m : Nat) (f : Nat → Nat) :
    ∀ n, (∀ j, j < n → m ≤ f j) → n * m ≤ ((List.range n).map f).sum := by
  intro n
  induction n with
  | zero => intro _; simp
  | succ k ih =>
    intro hf
    rw [List.range_succ]
    simp only [List.map_append, List.sum_append, List.map_cons, List.map_nil,
      List.sum_cons, List.sum_nil]
    have h1 := ih (fun j hj => hf j (by omega))
    have h2 := hf k (by omega)
    rw [Nat.succ_mul]
    omega

/-- If every summand is at least m and one of them is strictly larger, the
sum strictly exceeds n * m. -/
theorem sum_map_range_point (m i : Nat) (f : Nat → Nat) :
    ∀ n, i < n → (∀ j, j < n → m ≤ f j) → m + 1 ≤ f i →
      n * m + 1 ≤ ((List.range n).map f).sum := by
  intro n
  induction n with
  | zero => intro h; omega
  | succ k ih =>
    intro hi hf hpt
    rw [List.range_succ]
    simp only [List.map_append, List.sum_append, List.map_cons, List.map_nil,
      List.sum_cons, List.sum_nil]
    rw [Nat.succ_mul]
    by_cases h : i < k
    · have h1 := ih h (fun j hj => hf j (by omega)) hpt
      have h2 := hf k (by omega)
      omega
    · have hik : i = k := by omega
      subst hik
      have h1 := sum_map_range_lower m f i (fun j hj => hf j (by omega))
      omega

/-- Over a duplicate-free list containing x, dropping x by a filter removes
exactly one element. -/
theorem filter_ne_length {x : Char} :
    ∀ l : List Char, l.Nodup → x ∈ l →
      (l.filter (fun c => decide (c ≠ x))).length = l.length - 1 := by
  intro l
  induction l with
  | nil => intro _ h; simp at h
  | cons a l ih =>
    intro hnd hx
    rw [List.nodup_cons] at hnd
    rcases List.mem_cons.mp hx with rfl | hxl
    · rw [List.filter_cons, if_neg (by simp)]
      have hself : List.filter (fun c => decide (c ≠ x)) l = l := by
        apply List.filter_eq_self.mpr
        intro c hc
        have hne : c ≠ x := by
          intro he
          subst he
          exact hnd.1 hc
        simpa using hne
      rw [hself]
      simp
    · have hax : a ≠ x := by
        intro he
        subst he
        exact hnd.1 hxl
      have hpos : 0 < l.length := List.length_pos.mpr (List.ne_nil_of_mem hxl)
      rw [List.filter_cons, if_pos (decide_eq_true hax)]
      simp only [List.length_cons, ih hnd.2 hxl]
      omega

/-- Over a duplicate-free list, a filter dropping one value removes at most
one element. -/
theorem filter_ne_length_ge {x : Char} (l : List Char) (hnd : l.Nodup) :
    l.length - 1 ≤ (l.filter (fun c => decide (c ≠ x))).length := by
  by_cases hx : x ∈ l
  · rw [filter_ne_length l hnd hx]
  · have hself : List.filter (fun c => decide (c ≠ x)) l = l := by
      apply List.filter_eq_self.mpr
      intro c hc
      have hne : c ≠ x := by
        intro he
        subst he
        exact hx hc
      simpa using hne
    rw [hself]
    omega

/-- Counting positions of a list whose entry satisfies p is counting the
entries satisfying p. -/
theorem length_filter_range_getD (p : Char → Bool) (d : Char) :
    ∀ l : List Char,
      ((List.range l.length).filter (fun i => p (l.getD i d))).length =
        (l.filter p).length := by
  intro l
  induction l with
  | nil => rfl
  | cons a l ih =>
    show ((List.range (l.length + 1)).filter
        (fun i => p ((a :: l).getD i d))).length = _
    rw [List.range_succ_eq_map, List.filter_cons, List.filter_map]
    have hcomp : ((fun i => p ((a :: l).getD i d)) ∘ Nat.succ) =
        (fun i => p (l.getD i d)) := by
      funext i
      simp [List.getD_cons_succ]
    rw [hcomp]
    by_cases h : p a
    · rw [if_pos (by simpa using h), List.length_cons, List.length_map, ih,
        List.filter_cons, if_pos h, List.length_cons]
    · rw [if_neg (by simpa using h), List.length_map, ih,
        List.filter_cons, if_neg h]

/-- getD of a zip of two lists at a valid index is the pair of getDs. -/
theorem zip_getD {α β : Type} (da : α) (db : β) :
    ∀ (xs : List α) (ys : List β) (i : Nat), i < xs.length → i < ys.length →
      (xs.zip ys).getD i (da, db) = (xs.getD i da, ys.getD i db) := by
  intro xs
  induction xs with
  | nil =>
    intro ys i h
    simp at h
  | cons x xs ih =>
    intro ys i h1 h2
    cases ys with
    | nil => simp at h2
    | cons y ys =>
      cases i with
      | zero => rfl
      | succ k =>
        have e : ((x, y) :: xs.zip ys).getD (k + 1) (da, db) =
            (xs.zip ys).getD k (da, db) := rfl
        rw [List.zip_cons_cons, e, List.getD_cons_succ, List.getD_cons_succ]
        exact ih ys k (by simpa using h1) (by simpa using h2)

/-- getD of a mapped list at a valid index. -/
theorem getD_map {α β : Type} (f : α → β) (l : List α) (i : Nat) (d : β)
    (d' : α) (h : i < l.length) :
    (l.map f).getD i d = f (l.getD i d') := by
  rw [List.getD_eq_getElem _ _ (by simpa using h), List.getD_eq_getElem _ _ h,
    List.getElem_map]

/-- The loop of dna_mutation_gen written as filter-then-map per position. -/
theorem dna_mutation_gen_eq (seq : BioSeq) :
    dna_mutation_gen seq =
      (List.range seq.data.length).flatMap (fun i =>
        (seq.letters.filter
            (fun letter => decide (letter ≠ (seq.data.getD i ' ').toUpper))).map
          (fun letter => seq.data.take i ++ letter :: seq.data.drop (i + 1))) := by
  simp only [dna_mutation_gen]
  exact congrArg _ (funext (fun i =>
    filterMap_ite (fun letter => letter ≠ (seq.data.getD i ' ').toUpper)
      (fun letter => seq.data.take i ++ letter :: seq.data.drop (i + 1))
      seq.letters))

/-- When every external tool returns one result per input,
dna_properties_batch keeps the input order and count and builds the i-th
record from the i-th entry of each tool's result, the self-hybridization
field being the first component of the i-th pair. -/
theorem dna_properties_batch_getD (GC : List Char → Int)
    (mt ssm : List (List Char) → List Int)
    (hmf : List (List Char) → List (List Char) → List (Int × Int))
    (seqs : List (List Char))
    (h1 : (mt seqs).length = seqs.length)
    (h2 : (ssm seqs).length = seqs.length)
    (h3 : (hmf seqs seqs).length = seqs.length) :
    (dna_properties_batch GC mt ssm hmf seqs).length = seqs.length ∧
    ∀ i, i < seqs.length →
      (dna_properties_batch GC mt ssm hmf seqs)[i]? =
        some ⟨seqs.getD i [], GC (seqs.getD i []),
          (mt seqs).getD i 0, (ssm seqs).getD i 0,
          ((hmf seqs seqs).getD i (0, 0)).1⟩ := by
  simp only [dna_properties_batch, List.map_id']
  have hz : (seqs.zip ((seqs.map (fun seq => GC seq)).zip
      ((mt seqs).zip ((ssm seqs).zip
        ((hmf seqs seqs).map (fun r => r.1)))))).length = seqs.length := by
    simp only [List.length_zip, List.length_map, h1, h2, h3]
    omega
  constructor
  · rw [List.length_map, hz]
  · intro i hi
    rw [List.getElem?_map]
    have hzi : (seqs.zip ((seqs.map (fun seq => GC seq)).zip
        ((mt seqs).zip ((ssm seqs).zip
          ((hmf seqs seqs).map (fun r => r.1))))))[i]? =
        some ((seqs.zip ((seqs.map (fun seq => GC seq)).zip
          ((mt seqs).zip ((ssm seqs).zip
            ((hmf seqs seqs).map (fun r => r.1)))))).getD i
              ([], (0, (0, (0, 0))))) := by
      rw [List.getD_eq_getElem _ _ (by omega), List.getElem?_eq_getElem]
    rw [hzi, Option.map_some']
    rw [zip_getD [] (0, (0, (0, 0))) _ _ i hi
      (by simp only [List.length_zip, List.length_map, h1, h2, h3]; omega)]
    rw [zip_getD 0 (0, (0, 0)) _ _ i (by simp only [List.length_map]; omega)
      (by simp only [List.length_zip, List.length_map, h1, h2, h3]; omega)]
    rw [zip_getD 0 (0, 0) _ _ i (by omega)
      (by simp only [List.length_zip, List.length_map, h2, h3]; omega)]
    rw [zip_getD 0 0 _ _ i (by omega) (by simp only [List.length_map]; omega)]
    rw [getD_map (fun seq => GC seq) seqs i 0 [] hi]
    rw [getD_map (fun r => r.1) (hmf seqs seqs) i 0 (0, 0) (by omega)]

/-- Claim C1: for bounds 0 < min_len ≤ max_len < len(seq), oligo_gen yields
exactly the windows seq[i:i+j] for every start index i with
0 ≤ i < len(seq) - min_len and every length j with min_len ≤ j ≤ max_len and
i + j ≤ len(seq), nothing else, enumerated by increasing start index and,
per start index, by increasing length; every yielded oligo has length in
[min_len, max_len] and is a contiguous substring of seq. -/
theorem claim_C1_oligo_gen (seq : List Char) (min_len max_len : Nat)
    (h0 : 0 < min_len) (h1 : min_len ≤ max_len) (h2 : max_len < seq.length) :
    oligo_gen seq min_len max_len =
      (List.range (seq.length - min_len)).flatMap (fun i =>
        ((List.range' min_len (max_len + 1 - min_len)).filter
            (fun j => decide (i + j ≤ seq.length))).map
          (fun j => pySlice seq i (i + j))) ∧
    ∀ o ∈ oligo_gen seq min_len max_len,
      min_len ≤ o.length ∧ o.length ≤ max_len ∧ List.IsInfix o seq := by
  have hlen : ∀ i j : Nat, (pySlice seq i (i + j)).length =
      min j (seq.length - i) := by
    intro i j
    simp [pySlice, Nat.add_sub_cancel_left]
  constructor
  · simp only [oligo_gen]
    refine congrArg _ (funext (fun i => ?_))
    rw [filterMap_ite (fun j => (pySlice seq i (i + j)).length = j)
      (fun j => pySlice seq i (i + j))]
    refine congrArg _ (List.filter_congr (fun j hj => ?_))
    have hj1 : min_len ≤ j := (List.mem_range'_1.mp hj).1
    apply decide_eq_decide.mpr
    rw [hlen i j]
    omega
  · intro o ho
    simp only [oligo_gen, List.mem_flatMap, List.mem_filterMap,
      List.mem_range] at ho
    obtain ⟨i, hi, j, hj, hif⟩ := ho
    rw [List.mem_range'_1] at hj
    by_cases hc : (pySlice seq i (i + j)).length = j
    · rw [if_pos hc] at hif
      obtain rfl : pySlice seq i (i + j) = o := Option.some.inj hif
      refine ⟨by rw [hc]; exact hj.1, by rw [hc]; omega, ?_⟩
      refine ⟨seq.take i, (seq.drop i).drop j, ?_⟩
      have ho : pySlice seq i (i + j) = (seq.drop i).take j := by
        simp [pySlice, Nat.add_sub_cancel_left]
      rw [ho, List.append_assoc, List.take_append_drop, List.take_append_drop]
    · rw [if_neg hc] at hif
      exact absurd hif (by simp)

/-- Claim C1 witness: concrete bounds on the concrete sequence ACGTA. -/
theorem claim_C1_witness :
    (0 < 2 ∧ 2 ≤ 3 ∧ 3 < exSeq.length) ∧
    ∀ o ∈ oligo_gen exSeq 2 3,
      2 ≤ o.length ∧ o.length ≤ 3 ∧ List.IsInfix o exSeq :=
  ⟨⟨by decide, by decide, by decide⟩,
    (claim_C1_oligo_gen exSeq 2 3 (by decide) (by decide) (by decide)).2⟩

/-- Claim C9: degenerate bounds (min_len at least the sequence length, or
max_len below min_len) make oligo_gen produce nothing, and no error: the
model is a total function returning the empty list. -/
theorem claim_C9_degenerate (seq : List Char) (min_len max_len : Nat)
    (h : seq.length ≤ min_len ∨ max_len < min_len) :
    oligo_gen seq min_len max_len = [] := by
  rcases h with h | h
  · simp [oligo_gen, Nat.sub_eq_zero_of_le h]
  · have he : max_len + 1 - min_len = 0 := by omega
    simp [oligo_gen, he]

/-- Claim C9 witness: min_len exceeding the length of ACG yields nothing. -/
theorem claim_C9_witness :
    ((['A', 'C', 'G'] : List Char).length ≤ 5 ∨ 9 < 5) ∧
    oligo_gen ['A', 'C', 'G'] 5 9 = [] :=
  ⟨Or.inl (by decide),
    claim_C9_degenerate ['A', 'C', 'G'] 5 9 (Or.inl (by decide))⟩

/-- Claim C6: inosine_gen yields one variant per position whose uppercased
character is G, A or T (so the count is the case-insensitive count of G, A
and T in the input), each variant being the input with that single position
replaced by the literal character I, positions enumerated left to right and
all other positions (C included) producing no variant. -/
theorem claim_C6_inosine (seq : List Char) :
    (inosine_gen seq).length =
      (seq.filter
        (fun c => decide (c.toUpper ∈ (['G', 'A', 'T'] : List Char)))).length ∧
    inosine_gen seq =
      ((List.range seq.length).filter
          (fun i => decide
            ((seq.getD i ' ').toUpper ∈ (['G', 'A', 'T'] : List Char)))).map
        (fun i => seq.take i ++ 'I' :: seq.drop (i + 1)) ∧
    ∀ v ∈ inosine_gen seq, ∃ i, i < seq.length ∧
      (seq.getD i ' ').toUpper ∈ (['G', 'A', 'T'] : List Char) ∧
      v = seq.take i ++ 'I' :: seq.drop (i + 1) ∧
      v.length = seq.length ∧ v[i]? = some 'I' ∧
      ∀ j, j ≠ i → v[j]? = seq[j]? := by
  have henum : inosine_gen seq =
      ((List.range seq.length).filter
          (fun i => decide
            ((seq.getD i ' ').toUpper ∈ (['G', 'A', 'T'] : List Char)))).map
        (fun i => seq.take i ++ 'I' :: seq.drop (i + 1)) := by
    simp only [inosine_gen]
    exact filterMap_ite
      (fun i => (seq.getD i ' ').toUpper ∈ (['G', 'A', 'T'] : List Char))
      (fun i => seq.take i ++ 'I' :: seq.drop (i + 1)) (List.range seq.length)
  refine ⟨?_, henum, ?_⟩
  · rw [henum, List.length_map,
      length_filter_range_getD
        (fun c => decide (c.toUpper ∈ (['G', 'A', 'T'] : List Char))) ' ' seq]
  · intro v hv
    rw [henum] at hv
    simp only [List.mem_map, List.mem_filter, List.mem_range,
      decide_eq_true_eq] at hv
    obtain ⟨i, ⟨hi, hp⟩, rfl⟩ := hv
    refine ⟨i, hi, hp, rfl, mutate_length seq i 'I' hi, ?_, ?_⟩
    · rw [mutate_getElem seq i 'I' hi i, if_pos rfl]
    · intro j hj
      rw [mutate_getElem seq i 'I' hi j, if_neg hj]

/-- Claim C6 witness: on Gc the generator produces exactly the variant Ic
(the lowercase c position, uppercasing to C, is skipped). -/
theorem claim_C6_witness :
    (inosine_gen mixedGc).length =
      (mixedGc.filter
        (fun c => decide (c.toUpper ∈ (['G', 'A', 'T'] : List Char)))).length ∧
    inosine_gen mixedGc = [['I', 'c']] :=
  ⟨(claim_C6_inosine mixedGc).1, by decide⟩

/-- Claim C3, counterexample: over the duplicate-free alphabet Aa (size 2),
with every character of the input uppercasing to a letter of the alphabet,
the input consisting of the single lowercase character a makes
dna_mutation_gen yield exactly the input itself — a variant differing from
the sequence at no position at all, refuting the claim's statement that
each variant differs from the input at exactly one position. -/
theorem claim_C3_counterexample :
    mixedSeq.letters.Nodup ∧
    (∀ c ∈ mixedSeq.data, c.toUpper ∈ mixedSeq.letters) ∧
    dna_mutation_gen mixedSeq = [mixedSeq.data] := by
  refine ⟨by decide, by decide, ?_⟩
  decide

/-- Claim C3 as amended: additionally assuming every alphabet letter is
fixed under uppercasing (true of the DNA alphabets the code is used with),
dna_mutation_gen yields exactly len(seq) * (alphabet_size - 1) variants,
enumerated by position left to right and, per position, by the alphabet's
letter order skipping only the letter equal to the uppercased original
character; each variant agrees with the input everywhere but at its mutated
position, where it holds an alphabet letter differing both from the
original character and from its uppercase form. -/
theorem claim_C3_amended (seq : BioSeq)
    (hnd : seq.letters.Nodup)
    (hup : ∀ c ∈ seq.data, c.toUpper ∈ seq.letters)
    (hfix : ∀ c ∈ seq.letters, c.toUpper = c) :
    (dna_mutation_gen seq).length =
      seq.data.length * (seq.letters.length - 1) ∧
    dna_mutation_gen seq =
      (List.range seq.data.length).flatMap (fun i =>
        (seq.letters.filter
            (fun letter => decide (letter ≠ (seq.data.getD i ' ').toUpper))).map
          (fun letter => seq.data.take i ++ letter :: seq.data.drop (i + 1))) ∧
    ∀ v ∈ dna_mutation_gen seq, v.length = seq.data.length ∧
      ∃ i, i < seq.data.length ∧ v[i]? ≠ seq.data[i]? ∧
        (∃ c ∈ seq.letters,
          v[i]? = some c ∧ c ≠ (seq.data.getD i ' ').toUpper) ∧
        ∀ j, j ≠ i → v[j]? = seq.data[j]? := by
  have henum := dna_mutation_gen_eq seq
  refine ⟨?_, henum, ?_⟩
  · rw [henum, List.length_flatMap]
    rw [List.map_congr_left (g := fun _ => seq.letters.length - 1) ?_]
    · exact sum_map_range_const seq.data.length (seq.letters.length - 1)
    · intro i hi
      rw [List.mem_range] at hi
      have hmem : seq.data.getD i ' ' ∈ seq.data := getD_mem_of_lt _ i ' ' hi
      simp only [Function.comp_apply, List.length_map]
      exact filter_ne_length seq.letters hnd (hup _ hmem)
  · intro v hv
    rw [henum] at hv
    simp only [List.mem_flatMap, List.mem_map, List.mem_filter,
      List.mem_range, decide_eq_true_eq] at hv
    obtain ⟨i, hi, c, ⟨hcl, hcne⟩, rfl⟩ := hv
    refine ⟨mutate_length _ i c hi, i, hi, ?_, ⟨c, hcl, ?_, hcne⟩, ?_⟩
    · rw [mutate_getElem _ i c hi i, if_pos rfl, List.getElem?_eq_getElem hi]
      intro he
      have hc_eq : c = seq.data[i] := Option.some.inj he
      apply hcne
      rw [List.getD_eq_getElem _ _ hi, ← hc_eq, hfix c hcl]
    · rw [mutate_getElem _ i c hi i, if_pos rfl]
    · intro j hj
      rw [mutate_getElem _ i c hi j, if_neg hj]

/-- Claim C3 witness for the amended statement: the spec's own example AC
over the alphabet ACGT yields the six variants CC, GC, TC, AA, AG, AT in
that order. -/
theorem claim_C3_witness :
    (dna_mutation_gen seq3).length =
      seq3.data.length * (seq3.letters.length - 1) ∧
    dna_mutation_gen seq3 =
      [['C', 'C'], ['G', 'C'], ['T', 'C'],
       ['A', 'A'], ['A', 'G'], ['A', 'T']] :=
  ⟨(claim_C3_amended seq3 (by decide) (by decide) (by decide)).1, by decide⟩

/-- Claim C10: when some position of the input uppercases to a character
that is no letter of the (duplicate-free) alphabet, the filter at that
position skips nothing — the position contributes one variant per alphabet
letter, alphabet_size many instead of alphabet_size - 1 — and hence the
total number of variants strictly exceeds len(seq) * (alphabet_size - 1). -/
theorem claim_C10_nonalpha (seq : BioSeq) (i : Nat)
    (hnd : seq.letters.Nodup)
    (hi : i < seq.data.length)
    (hbad : (seq.data.getD i ' ').toUpper ∉ seq.letters) :
    (seq.letters.filter
        (fun letter => decide (letter ≠ (seq.data.getD i ' ').toUpper))).length =
      seq.letters.length ∧
    (seq.data.length : Int) * ((seq.letters.length : Int) - 1) <
      ((dna_mutation_gen seq).length : Int) := by
  have hfull : seq.letters.filter
      (fun letter => decide (letter ≠ (seq.data.getD i ' ').toUpper)) =
      seq.letters := by
    apply List.filter_eq_self.mpr
    intro c hc
    have hne : c ≠ (seq.data.getD i ' ').toUpper := by
      intro he
      rw [he] at hc
      exact hbad hc
    simpa using hne
  refine ⟨by rw [hfull], ?_⟩
  rw [dna_mutation_gen_eq, List.length_flatMap]
  rcases Nat.eq_zero_or_pos seq.letters.length with hk | hk
  · have hl : seq.letters = [] := List.length_eq_zero.mp hk
    have hzero : ∀ j ∈ List.range seq.data.length,
        (List.length ∘ fun i =>
          (seq.letters.filter
              (fun letter =>
                decide (letter ≠ (seq.data.getD i ' ').toUpper))).map
            (fun letter =>
              seq.data.take i ++ letter :: seq.data.drop (i + 1))) j =
          (fun _ : Nat => 0) j := by
      intro j _
      simp [hl]
    rw [List.map_congr_left hzero, sum_map_range_const]
    rw [hk]
    have hpos : 1 ≤ seq.data.length := by omega
    simp only [Nat.cast_ofNat, Nat.cast_zero, Nat.mul_zero, Nat.cast_mul]
    omega
  · have hineq := sum_map_range_point (seq.letters.length - 1) i
      (List.length ∘ fun i =>
        (seq.letters.filter
            (fun letter =>
              decide (letter ≠ (seq.data.getD i ' ').toUpper))).map
          (fun letter => seq.data.take i ++ letter :: seq.data.drop (i + 1)))
      seq.data.length hi
      (by
        intro j _
        simp only [Function.comp_apply, List.length_map]
        exact filter_ne_length_ge seq.letters hnd)
      (by
        simp only [Function.comp_apply, List.length_map, hfull]
        omega)
    have hcast : ((seq.data.length * (seq.letters.length - 1) : Nat) : Int) =
        (seq.data.length : Int) * ((seq.letters.length : Int) - 1) := by
      rw [Nat.cast_mul, Nat.cast_sub hk, Nat.cast_one]
    rw [← hcast]
    exact_mod_cast Nat.lt_of_succ_le hineq

/-- Claim C10 witness: AN over ACGT gives 4 variants at the N position and
7 variants in total, exceeding 2 * 3 = 6. -/
theorem claim_C10_witness :
    ((seqN.data.length : Int) * ((seqN.letters.length : Int) - 1) <
      ((dna_mutation_gen seqN).length : Int)) ∧
    (dna_mutation_gen seqN).length = 7 :=
  ⟨(claim_C10_nonalpha seqN 1 (by decide) (by decide) (by decide)).2,
    by decide⟩

/-- Claim C4: when the amino-acid counts, aromaticity and isoelectric-point
computations succeed, a KeyError of the instability computation (or of the
GRAVY computation) is caught and surfaces as a None field while all other
fields stay populated; a non-KeyError failure of either guarded
computation, and any failure of the three unguarded computations,
propagates uncaught. -/
theorem claim_C4_protein_properties (analyze : List Char → ProteinAnalysis)
    (seq : List Char) :
    (∀ counts arom iso g,
      (analyze seq).count_amino_acids = Except.ok counts →
      (analyze seq).aromaticity = Except.ok arom →
      (analyze seq).isoelectric_point = Except.ok iso →
      (analyze seq).instability_index = Except.error PyError.keyError →
      (analyze seq).gravy = Except.ok g →
      protein_properties analyze seq =
        Except.ok ⟨seq, some g, arom, iso, none, counts⟩) ∧
    (∀ counts arom iso v,
      (analyze seq).count_amino_acids = Except.ok counts →
      (analyze seq).aromaticity = Except.ok arom →
      (analyze seq).isoelectric_point = Except.ok iso →
      (analyze seq).instability_index = Except.ok v →
      (analyze seq).gravy = Except.error PyError.keyError →
      protein_properties analyze seq =
        Except.ok ⟨seq, none, arom, iso, some v, counts⟩) ∧
    (∀ counts arom iso,
      (analyze seq).count_amino_acids = Except.ok counts →
      (analyze seq).aromaticity = Except.ok arom →
      (analyze seq).isoelectric_point = Except.ok iso →
      (analyze seq).instability_index = Except.error PyError.keyError →
      (analyze seq).gravy = Except.error PyError.keyError →
      protein_properties analyze seq =
        Except.ok ⟨seq, none, arom, iso, none, counts⟩) ∧
    (∀ counts arom iso,
      (analyze seq).count_amino_acids = Except.ok counts →
      (analyze seq).aromaticity = Except.ok arom →
      (analyze seq).isoelectric_point = Except.ok iso →
      (analyze seq).instability_index = Except.error PyError.otherError →
      protein_properties analyze seq = Except.error PyError.otherError) ∧
    (∀ counts arom iso oinst,
      (analyze seq).count_amino_acids = Except.ok counts →
      (analyze seq).aromaticity = Except.ok arom →
      (analyze seq).isoelectric_point = Except.ok iso →
      tryKeyError (analyze seq).instability_index = Except.ok oinst →
      (analyze seq).gravy = Except.error PyError.otherError →
      protein_properties analyze seq = Except.error PyError.otherError) ∧
    (∀ e, (analyze seq).count_amino_acids = Except.error e →
      protein_properties analyze seq = Except.error e) ∧
    (∀ counts e,
      (analyze seq).count_amino_acids = Except.ok counts →
      (analyze seq).aromaticity = Except.error e →
      protein_properties analyze seq = Except.error e) ∧
    (∀ counts arom e,
      (analyze seq).count_amino_acids = Except.ok counts →
      (analyze seq).aromaticity = Except.ok arom →
      (analyze seq).isoelectric_point = Except.error e →
      protein_properties analyze seq = Except.error e) := by
  refine ⟨?_, ?_, ?_, ?_, ?_, ?_, ?_, ?_⟩
  · intro counts arom iso g hc ha hp hin hg
    simp [protein_properties, tryKeyError, hc, ha, hp, hin, hg]
  · intro counts arom iso v hc ha hp hin hg
    simp [protein_properties, tryKeyError, hc, ha, hp, hin, hg]
  · intro counts arom iso hc ha hp hin hg
    simp [protein_properties, tryKeyError, hc, ha, hp, hin, hg]
  · intro counts arom iso hc ha hp hin
    simp [protein_properties, tryKeyError, hc, ha, hp, hin]
  · intro counts arom iso oinst hc ha hp hin hg
    simp only [protein_properties, hc, ha, hp]
    rw [hin]
    simp [tryKeyError, hg]
  · intro e hc
    simp [protein_properties, hc]
  · intro counts e hc ha
    simp [protein_properties, hc, ha]
  · intro counts arom e hc ha hp
    simp [protein_properties, hc, ha, hp]

/-- Claim C4 witness: with an analysis whose instability computation raises
KeyError and everything else succeeds, the record carries instability none
and every other field populated. -/
theorem claim_C4_witness :
    (paKey ['A', 'A']).instability_index = Except.error PyError.keyError ∧
    protein_properties paKey ['A', 'A'] =
      Except.ok ⟨['A', 'A'], some 7, 3, 5, none, [('A', 2)]⟩ :=
  ⟨rfl, (claim_C4_protein_properties paKey ['A', 'A']).1
    [('A', 2)] 3 5 7 rfl rfl rfl rfl rfl⟩

/-- Claim C5: when every external batch tool returns one result per input
in input order, dna_properties_batch returns one record per input in input
order; the i-th record is built, in the fixed field order na, gc, Tm,
ss_dG, self_hyb_dG, from the i-th input (its string form), its GC value,
the i-th melting temperature, the i-th folding energy and the first
component of the i-th result pair of the hybridization call made with the
sequence list paired against itself. -/
theorem claim_C5_batch (GC : List Char → Int)
    (mt ssm : List (List Char) → List Int)
    (hmf : List (List Char) → List (List Char) → List (Int × Int))
    (seqs : List (List Char)) (hne : seqs ≠ [])
    (h1 : (mt seqs).length = seqs.length)
    (h2 : (ssm seqs).length = seqs.length)
    (h3 : (hmf seqs seqs).length = seqs.length) :
    (dna_properties_batch GC mt ssm hmf seqs).length = seqs.length ∧
    ∀ i, i < seqs.length →
      (dna_properties_batch GC mt ssm hmf seqs)[i]? =
        some ⟨seqs.getD i [], GC (seqs.getD i []),
          (mt seqs).getD i 0, (ssm seqs).getD i 0,
          ((hmf seqs seqs).getD i (0, 0)).1⟩ :=
  dna_properties_batch_getD GC mt ssm hmf seqs h1 h2 h3

/-- Claim C5 witness: two concrete inputs with well-behaved concrete tools
give two records in input order with the expected fields. -/
theorem claim_C5_witness :
    (exBatch ≠ [] ∧ (mtEx exBatch).length = exBatch.length) ∧
    (dna_properties_batch gcEx mtEx ssEx hmEx exBatch).length =
      exBatch.length ∧
    dna_properties_batch gcEx mtEx ssEx hmEx exBatch =
      [⟨['A'], 1, 41, -2, -5⟩, ⟨['C', 'G'], 2, 42, -2, -5⟩] :=
  ⟨⟨by decide, by decide⟩,
    (claim_C5_batch gcEx mtEx ssEx hmEx exBatch (by decide)
      (by decide) (by decide) (by decide)).1,
    by decide⟩

/-- Claim C7: dna_properties is exactly the first (and only) record of
dna_properties_batch on the one-element list — the same computation path,
not a separate one — and when the tools return one result for that
one-element batch it is that fully populated record. -/
theorem claim_C7_wrapper (GC : List Char → Int)
    (mt ssm : List (List Char) → List Int)
    (hmf : List (List Char) → List (List Char) → List (Int × Int))
    (seq : List Char) :
    dna_properties GC mt ssm hmf seq =
      (dna_properties_batch GC mt ssm hmf [seq])[0]? ∧
    ((mt [seq]).length = 1 → (ssm [seq]).length = 1 →
      (hmf [seq] [seq]).length = 1 →
      dna_properties GC mt ssm hmf seq =
        some ⟨seq, GC seq, (mt [seq]).getD 0 0, (ssm [seq]).getD 0 0,
          ((hmf [seq] [seq]).getD 0 (0, 0)).1⟩) := by
  refine ⟨rfl, ?_⟩
  intro h1 h2 h3
  have h := (dna_properties_batch_getD GC mt ssm hmf [seq]
    (by simpa using h1) (by simpa using h2) (by simpa using h3)).2 0 (by simp)
  simpa [dna_properties] using h

/-- Claim C7 witness: on the concrete sequence AC with the concrete tools,
the wrapper returns the one populated record. -/
theorem claim_C7_witness :
    ((mtEx [wSeq]).length = 1 ∧ (ssEx [wSeq]).length = 1 ∧
      (hmEx [wSeq] [wSeq]).length = 1) ∧
    dna_properties gcEx mtEx ssEx hmEx wSeq =
      some ⟨wSeq, gcEx wSeq, (mtEx [wSeq]).getD 0 0, (ssEx [wSeq]).getD 0 0,
        ((hmEx [wSeq] [wSeq]).getD 0 (0, 0)).1⟩ :=
  ⟨⟨by decide, by decide, by decide⟩,
    (claim_C7_wrapper gcEx mtEx ssEx hmEx wSeq).2
      (by decide) (by decide) (by decide)⟩

/-- Claim C2, behaviour of the code at a mismatched external result: with
two input sequences and a melting-temperature tool returning a single
value, dna_properties_batch silently truncates via zip and returns a single
record — no error of any kind is raised, contradicting the claim that a
mismatched-length external result must propagate as an error. -/
theorem claim_C2_zip_truncates :
    dna_properties_batch (fun _ => 0) (fun _ => [7])
      (fun l => l.map (fun _ => 0)) (fun a _ => a.map (fun _ => (0, 0)))
      [['A'], ['C']] = [⟨['A'], 0, 7, 0, 0⟩] := by
  decide

/-- Claim C8: for every state of the random source and every length n,
random_dna_seq returns a sequence of exactly n characters, each one of A,
C, G, T. -/
theorem claim_C8_random (draw : Nat → Fin 4) (n : Nat) :
    (random_dna_seq draw n).data.length = n ∧
    ∀ c ∈ (random_dna_seq draw n).data,
      c ∈ (['A', 'C', 'G', 'T'] : List Char) := by
  constructor
  · simp [random_dna_seq]
  · intro c hc
    simp only [random_dna_seq, List.mem_map, List.mem_range] at hc
    obtain ⟨k, _, rfl⟩ := hc
    exact List.get_mem _ _ _

/-- Claim C8 witness: a source that always draws index 1 gives CCC. -/
theorem claim_C8_witness :
    (random_dna_seq (fun _ => 1) 3).data.length = 3 ∧
    (random_dna_seq (fun _ => 1) 3).data = ['C', 'C', 'C'] :=
  ⟨(claim_C8_random (fun _ => 1) 3).1, by decide⟩

end Llutil
